import Mathlib

/-!
Shallow embedding of the substrate_projection_interpreter core
(src/substrate.rs, src/symbol.rs, src/agents.rs, src/symmetry.rs,
src/recursions.rs).  Rust `f64` values are modelled as exact rationals;
`VecDeque` and `Vec` are modelled as Lean lists (front of the deque is
the head of the list); `HashMap` is modelled as a key-unique association
list.  A Rust function that can panic (out-of-bounds slice indexing) is
modelled with an `Option` result, `none` standing for the panic.
-/

set_option autoImplicit false

namespace SPTL

/-- Rust `f64::clamp(lo, hi)` for `lo ≤ hi`, on rationals. -/
def clampQ (x lo hi : ℚ) : ℚ := max lo (min x hi)

/-- src/substrate.rs: `pub struct Pattern(pub String)`. -/
structure Pattern where
  val : String
deriving DecidableEq, Repr

/-- src/symbol.rs: `Symbol { token, pattern }`, equality by both fields. -/
structure Symbol where
  token : String
  pattern : Pattern
deriving DecidableEq, Repr

/-- src/symbol.rs: `Symbol::mutate`: append `*` to the token, keep the pattern. -/
def Symbol.mutate (s : Symbol) : Symbol :=
  ⟨s.token ++ "*", s.pattern⟩

/-- src/symbol.rs: `Meaning { sign, tau, description }`. -/
structure Meaning where
  sign : Symbol
  tau : Nat
  description : String
deriving DecidableEq, Repr

/-- src/symbol.rs: `Meaning::from_symbol`, with the Rust format string
`"Interpretation of '\x7b\x7d' at τ=\x7b\x7d"`. -/
def Meaning.from_symbol (symbol : Symbol) (tau : Nat) : Meaning :=
  { sign := symbol
    tau := tau
    description := "Interpretation of \x27" ++ symbol.token ++ "\x27 at τ=" ++ toString tau }

/-- src/agents.rs: `MemoryTrace { symbol, tau_index, stability, interpretants }`. -/
structure MemoryTrace where
  symbol : Symbol
  tau_index : Nat
  stability : ℚ
  interpretants : List Meaning
deriving DecidableEq, Repr

/-- src/agents.rs: `MemoryTrace::reinforce`:
`stability = (stability + delta).clamp(0.0, 1.0)`. -/
def MemoryTrace.reinforce (t : MemoryTrace) (delta : ℚ) : MemoryTrace :=
  { t with stability := clampQ (t.stability + delta) 0 1 }

/-- src/agents.rs: `MemoryTrace::decay`: `stability = (stability - rate).max(0.0)`. -/
def MemoryTrace.decay (t : MemoryTrace) (rate : ℚ) : MemoryTrace :=
  { t with stability := max 0 (t.stability - rate) }

/-- src/agents.rs: `MemoryField { traces: VecDeque<MemoryTrace>, max_traces }`;
the head of the list is the front of the deque (oldest trace). -/
structure MemoryField where
  traces : List MemoryTrace
  max_traces : Nat
deriving DecidableEq, Repr

/-- src/agents.rs: `MemoryField::admit`: insert iff `stability ≥ eta`,
popping the front when `len ≥ max_traces` (`pop_front` on an empty deque
is a no-op, as in Rust). -/
def MemoryField.admitTrace (f : MemoryField) (trace : MemoryTrace) (eta : ℚ) : MemoryField :=
  if eta ≤ trace.stability then
    let ts := if f.max_traces ≤ f.traces.length then f.traces.tail else f.traces
    { f with traces := ts ++ [trace] }
  else f

/-- src/agents.rs: `MemoryField::reinforce_symbol`: reinforce every trace whose
symbol equals `symbol` by full equality. -/
def MemoryField.reinforce_symbol (f : MemoryField) (symbol : Symbol) (delta : ℚ) :
    MemoryField :=
  { f with traces := f.traces.map (fun t => if t.symbol = symbol then t.reinforce delta else t) }

/-- src/agents.rs: `MemoryField::decay_all`: decay every trace, then retain
those with `stability > 0.0`. -/
def MemoryField.decay_all (f : MemoryField) (rate : ℚ) : MemoryField :=
  { f with traces := (f.traces.map (fun t => t.decay rate)).filter (fun t => 0 < t.stability) }

/-- src/agents.rs: `MemoryField::find`: first trace with matching symbol. -/
def MemoryField.find (f : MemoryField) (symbol : Symbol) : Option MemoryTrace :=
  f.traces.find? (fun t => decide (t.symbol = symbol))

/-- Key-unique association-list update, modelling `HashMap::insert`
(last write wins). -/
def tableInsert (tbl : List (String × Pattern)) (k : String) (v : Pattern) :
    List (String × Pattern) :=
  (k, v) :: tbl.filter (fun p => p.1 ≠ k)

/-- src/agents.rs: `Agent { id, symbol_table, memory, coherence_threshold }`;
the `HashMap` symbol table is modelled as a key-unique association list
queried with `List.lookup`. -/
structure Agent where
  id : String
  symbol_table : List (String × Pattern)
  memory : MemoryField
  coherence_threshold : ℚ
deriving DecidableEq, Repr

/-- src/agents.rs: `Agent::new`: empty table, empty memory of the given capacity. -/
def Agent.new (id : String) (max_memory : Nat) (coherence_threshold : ℚ) : Agent :=
  { id := id
    symbol_table := []
    memory := { traces := [], max_traces := max_memory }
    coherence_threshold := coherence_threshold }

/-- src/agents.rs: `Agent::express_symbol`: rebind the token, build a fresh
trace with stability 1 and no interpretants, attempt admission.  Returns the
mutated agent together with the Rust return value (the new symbol). -/
def Agent.express_symbol (a : Agent) (token : String) (pattern : Pattern) (tau : Nat) :
    Agent × Symbol :=
  let symbol : Symbol := ⟨token, pattern⟩
  let trace : MemoryTrace := { symbol := symbol, tau_index := tau, stability := 1, interpretants := [] }
  ({ a with
      symbol_table := tableInsert a.symbol_table token pattern
      memory := a.memory.admitTrace trace a.coherence_threshold }, symbol)

/-- `self.memory.traces.iter_mut().find(|t| &t.symbol == symbol)` followed by
`trace.interpretants.push(meaning)`: append the meaning to the first trace
matching by full symbol equality, leaving every other trace unchanged. -/
def pushFirstInterpretant : List MemoryTrace → Symbol → Meaning → List MemoryTrace
  | [], _, _ => []
  | t :: ts, s, m =>
    if t.symbol = s then { t with interpretants := t.interpretants ++ [m] } :: ts
    else t :: pushFirstInterpretant ts s m

/-- src/agents.rs: `Agent::interpret_symbol`: succeed iff the current binding
for the token equals the queried pattern; on success reinforce matching traces
by 0.1, build the meaning, append it to the first matching trace. -/
def Agent.interpret_symbol (a : Agent) (symbol : Symbol) (tau : Nat) :
    Agent × Option Meaning :=
  match a.symbol_table.lookup symbol.token with
  | some pattern =>
    if pattern = symbol.pattern then
      let mem := a.memory.reinforce_symbol symbol (1/10)
      let meaning := Meaning.from_symbol symbol tau
      let mem := { mem with traces := pushFirstInterpretant mem.traces symbol meaning }
      ({ a with memory := mem }, some meaning)
    else (a, none)
  | none => (a, none)

/-- src/agents.rs: `Agent::mutate_symbol` is pure and delegates to `Symbol::mutate`. -/
def Agent.mutate_symbol (_ : Agent) (symbol : Symbol) : Symbol :=
  symbol.mutate

/-- src/agents.rs: `Agent::decay_memory` delegates to `MemoryField::decay_all`. -/
def Agent.decay_memory (a : Agent) (rate : ℚ) : Agent :=
  { a with memory := a.memory.decay_all rate }

/-- src/substrate.rs: `Substrate { activations: HashMap<Pattern, f64> }`,
modelled as a key-unique association list. -/
structure Substrate where
  activations : List (Pattern × ℚ)
deriving DecidableEq, Repr

/-- src/substrate.rs: `Substrate::project`: `entry(pattern).or_insert(0.0) += 1.0`. -/
def Substrate.project (s : Substrate) (symbol : Symbol) : Substrate :=
  if (s.activations.lookup symbol.pattern).isSome then
    { activations :=
        s.activations.map (fun p => if p.1 = symbol.pattern then (p.1, p.2 + 1) else p) }
  else
    { activations := s.activations ++ [(symbol.pattern, 1)] }

/-- src/substrate.rs: `Substrate::decay`:
`v = (v * (1.0 - rate)).max(0.0)` on every entry, then retain `v > 0.01`. -/
def Substrate.decay (s : Substrate) (rate : ℚ) : Substrate :=
  { activations :=
      (s.activations.map (fun p => (p.1, max 0 (p.2 * (1 - rate))))).filter
        (fun p => 1/100 < p.2) }

/-- src/symmetry.rs: the body of `detect_symmetry`'s loop over
`agent.memory.traces`.  A trace with fewer than `window + 1` interpretants
makes the whole check `false`; otherwise the last `window` meanings are sliced
and `last[0]` is indexed — on an empty slice (only possible for `window = 0`)
Rust panics, modelled as `none`. -/
def symWalk (window : Nat) : List MemoryTrace → Option Bool
  | [] => some true
  | t :: ts =>
    if t.interpretants.length < window + 1 then some false
    else
      let lastw := t.interpretants.drop (t.interpretants.length - window)
      match lastw with
      | [] => none
      | m0 :: _ =>
        if lastw.all (fun m => decide (m.description = m0.description)) then symWalk window ts
        else some false

/-- src/symmetry.rs: `detect_symmetry(agent, window)`. -/
def detect_symmetry (agent : Agent) (window : Nat) : Option Bool :=
  symWalk window agent.memory.traces

/-- src/symmetry.rs: `detect_attractor` is an alias for `detect_symmetry`. -/
def detect_attractor (agent : Agent) (window : Nat) : Option Bool :=
  detect_symmetry agent window

/-- src/recursions.rs: `RecursionLevel`: Void < Particle < Atom < Molecule < Cell. -/
inductive RecursionLevel where
  | Void
  | Particle
  | Atom
  | Molecule
  | Cell
deriving DecidableEq, Repr

/-- The `as u8` discriminant of a recursion level (declaration order). -/
def RecursionLevel.ord : RecursionLevel → Nat
  | .Void => 0
  | .Particle => 1
  | .Atom => 2
  | .Molecule => 3
  | .Cell => 4

/-- src/recursions.rs: the `match self.level` of `promote`: successor level,
`None` at `Cell`. -/
def RecursionLevel.next : RecursionLevel → Option RecursionLevel
  | .Void => some .Particle
  | .Particle => some .Atom
  | .Atom => some .Molecule
  | .Molecule => some .Cell
  | .Cell => none

/-- src/recursions.rs: `CategoryObject { level, id, substrate, subobjects, agents }`
(boxed children modelled as a nested list). -/
inductive CategoryObject where
  | mk (level : RecursionLevel) (id : String) (substrate : Substrate)
      (subobjects : List CategoryObject) (agents : List Agent)

def CategoryObject.level : CategoryObject → RecursionLevel
  | .mk l _ _ _ _ => l

def CategoryObject.id : CategoryObject → String
  | .mk _ i _ _ _ => i

def CategoryObject.substrate : CategoryObject → Substrate
  | .mk _ _ s _ _ => s

def CategoryObject.subobjects : CategoryObject → List CategoryObject
  | .mk _ _ _ subs _ => subs

def CategoryObject.agents : CategoryObject → List Agent
  | .mk _ _ _ _ ags => ags

/-- src/recursions.rs: `CategoryObject::new`: leaf with default (empty)
substrate, no children, no agents. -/
def CategoryObject.new (level : RecursionLevel) (id : String) : CategoryObject :=
  .mk level id ⟨[]⟩ [] []

/-- src/recursions.rs: `CategoryObject::promote`: `None` at `Cell`, otherwise a
new node one level up with id `format!("\x7b\x7d-\x7b\x7d", next_level as u8, self.id)`,
default substrate, the consumed original as sole child, and no agents. -/
def CategoryObject.promote (c : CategoryObject) : Option CategoryObject :=
  match c.level.next with
  | none => none
  | some nl => some (.mk nl (toString nl.ord ++ "-" ++ c.id) ⟨[]⟩ [c] [])

/-- The per-agent summand of `aggregate_stability`:
`agent.memory.traces.iter().map(|t| t.stability).sum()`. -/
def agentStabilitySum (a : Agent) : ℚ :=
  (a.memory.traces.map (fun t => t.stability)).sum

/-- src/recursions.rs: `CategoryObject::aggregate_stability`: the children's
recursive aggregates summed, plus the owned agents' trace-stability sums. -/
def CategoryObject.aggregate_stability : CategoryObject → ℚ
  | .mk _ _ _ subs agents =>
    (subs.attach.map (fun s => s.1.aggregate_stability)).sum
      + (agents.map agentStabilitySum).sum
decreasing_by
  simp only [CategoryObject.mk.sizeOf_spec]
  have h := List.sizeOf_lt_of_mem s.2
  omega

/-- A whole run of `admit` calls, oldest call first. -/
def admitSeq (f : MemoryField) (ops : List (MemoryTrace × ℚ)) : MemoryField :=
  ops.foldl (fun g p => g.admitTrace p.1 p.2) f

/-- One reinforce-or-decay step on a single trace: `inl delta` is
`MemoryTrace::reinforce(delta)`, `inr rate` is `MemoryTrace::decay(rate)`. -/
def applyTraceOp (t : MemoryTrace) (op : ℚ ⊕ ℚ) : MemoryTrace :=
  match op with
  | .inl delta => t.reinforce delta
  | .inr rate => t.decay rate

/-- A finite sequence of reinforce/decay calls on a single trace. -/
def applyTraceOps (t : MemoryTrace) (ops : List (ℚ ⊕ ℚ)) : MemoryTrace :=
  ops.foldl applyTraceOp t

/-! ### Helper lemmas -/

theorem admit_max_traces (f : MemoryField) (t : MemoryTrace) (eta : ℚ) :
    (f.admitTrace t eta).max_traces = f.max_traces := by
  unfold MemoryField.admitTrace
  split <;> rfl

theorem admit_length_le (f : MemoryField) (t : MemoryTrace) (eta : ℚ)
    (hcap : 1 ≤ f.max_traces) (hlen : f.traces.length ≤ f.max_traces) :
    (f.admitTrace t eta).traces.length ≤ f.max_traces := by
  unfold MemoryField.admitTrace
  split
  · simp only [List.length_append, List.length_singleton]
    split
    · simp only [List.length_tail]
      omega
    · simp only [not_le] at *
      omega
  · exact hlen

theorem admitSeq_invariant (ops : List (MemoryTrace × ℚ)) (f : MemoryField)
    (hcap : 1 ≤ f.max_traces) (hlen : f.traces.length ≤ f.max_traces) :
    (admitSeq f ops).max_traces = f.max_traces ∧
    (admitSeq f ops).traces.length ≤ f.max_traces := by
  induction ops generalizing f with
  | nil => exact ⟨rfl, hlen⟩
  | cons op ops ih =>
    have hmax := admit_max_traces f op.1 op.2
    have hstep := admit_length_le f op.1 op.2 hcap hlen
    have h2 := ih (f.admitTrace op.1 op.2) (hmax ▸ hcap) (hmax ▸ hstep)
    simp only [admitSeq, List.foldl_cons] at h2 ⊢
    exact ⟨h2.1.trans hmax, hmax ▸ h2.2⟩

theorem pushFirstInterpretant_no_match (ts : List MemoryTrace) (s : Symbol) (m : Meaning)
    (h : ∀ t ∈ ts, t.symbol ≠ s) : pushFirstInterpretant ts s m = ts := by
  induction ts with
  | nil => rfl
  | cons t ts ih =>
    rw [pushFirstInterpretant, if_neg (h t (List.mem_cons_self t ts))]
    rw [ih (fun u hu => h u (List.mem_cons_of_mem t hu))]

theorem reinforce_symbol_no_match (f : MemoryField) (s : Symbol) (d : ℚ)
    (h : ∀ t ∈ f.traces, t.symbol ≠ s) : f.reinforce_symbol s d = f := by
  unfold MemoryField.reinforce_symbol
  have hmap : f.traces.map (fun t => if t.symbol = s then t.reinforce d else t) = f.traces := by
    conv_rhs => rw [← List.map_id f.traces]
    exact List.map_congr_left (fun t ht => if_neg (h t ht))
  rw [hmap]

theorem applyTraceOp_stability (t : MemoryTrace) (op : ℚ ⊕ ℚ)
    (h0 : 0 ≤ t.stability) (h1 : t.stability ≤ 1)
    (hop : Sum.elim (fun d => 0 ≤ d) (fun r => 0 ≤ r) op) :
    0 ≤ (applyTraceOp t op).stability ∧ (applyTraceOp t op).stability ≤ 1 := by
  cases op with
  | inl d =>
    simp only [applyTraceOp, MemoryTrace.reinforce, clampQ]
    exact ⟨le_max_left 0 _, max_le (by norm_num) (min_le_right _ 1)⟩
  | inr r =>
    simp only [Sum.elim_inr] at hop
    simp only [applyTraceOp, MemoryTrace.decay]
    exact ⟨le_max_left 0 _, max_le (by norm_num) (by linarith)⟩

theorem applyTraceOps_stability (ops : List (ℚ ⊕ ℚ)) (t : MemoryTrace)
    (h0 : 0 ≤ t.stability) (h1 : t.stability ≤ 1)
    (hops : ∀ op ∈ ops, Sum.elim (fun d => 0 ≤ d) (fun r => 0 ≤ r) op) :
    0 ≤ (applyTraceOps t ops).stability ∧ (applyTraceOps t ops).stability ≤ 1 := by
  induction ops generalizing t with
  | nil => exact ⟨h0, h1⟩
  | cons op ops ih =>
    have hstep := applyTraceOp_stability t op h0 h1 (hops op (List.mem_cons_self op ops))
    have := ih (applyTraceOp t op) hstep.1 hstep.2
      (fun o ho => hops o (List.mem_cons_of_mem op ho))
    simpa only [applyTraceOps, List.foldl_cons] using this

/-! ### Claim theorems -/

/-- C1 (corrected): the claim quantifies over any capacity; for
`max_traces = 0` a single admitted trace leaves the field with one entry,
exceeding the capacity, so the bound fails as stated. -/
theorem C1_counterexample :
    ¬ (((MemoryField.mk [] 0).admitTrace ⟨⟨"a", ⟨"p"⟩⟩, 0, 1, []⟩ 0).traces.length ≤
        (MemoryField.mk [] 0).max_traces) := by
  norm_num [MemoryField.admitTrace]

/-- C1 (amended): for every `MemoryField` with capacity `max_traces ≥ 1` whose
stored traces do not already exceed capacity, any sequence of `admit` calls
keeps the number of stored traces within `max_traces` at every step; and an
`admit` that inserts while the field is at capacity evicts exactly the oldest
trace (the front of the deque), regardless of the stabilities involved. -/
theorem C1_admit_capacity_fifo (f : MemoryField) (ops : List (MemoryTrace × ℚ))
    (hcap : 1 ≤ f.max_traces) (hlen : f.traces.length ≤ f.max_traces) :
    (∀ l₁ l₂, ops = l₁ ++ l₂ → (admitSeq f l₁).traces.length ≤ f.max_traces) ∧
    (∀ (t : MemoryTrace) (eta : ℚ), f.traces.length = f.max_traces →
      eta ≤ t.stability → (f.admitTrace t eta).traces = f.traces.tail ++ [t]) := by
  constructor
  · intro l₁ l₂ _
    exact (admitSeq_invariant l₁ f hcap hlen).2
  · intro t eta hfull hsta
    simp [MemoryField.admitTrace, hsta, hfull]

def c1Trace : MemoryTrace := ⟨⟨"a", ⟨"p"⟩⟩, 0, 1, []⟩

def c1Trace2 : MemoryTrace := ⟨⟨"b", ⟨"q"⟩⟩, 0, 1, []⟩

def c1Field : MemoryField := ⟨[c1Trace], 1⟩

/-- C1, instantiated: a one-slot field holding one trace. -/
theorem C1_admit_capacity_fifo_witness :
    (∀ l₁ l₂, [(c1Trace2, (0 : ℚ))] = l₁ ++ l₂ →
      (admitSeq c1Field l₁).traces.length ≤ c1Field.max_traces) ∧
    (∀ (t : MemoryTrace) (eta : ℚ), c1Field.traces.length = c1Field.max_traces →
      eta ≤ t.stability → (c1Field.admitTrace t eta).traces = c1Field.traces.tail ++ [t]) :=
  C1_admit_capacity_fifo c1Field [(c1Trace2, 0)] (by decide) (by decide)

/-- C2: `interpret_symbol` returns a meaning iff the current binding for the
token equals the queried pattern exactly, and when it returns nothing the
agent is left completely unchanged. -/
theorem C2_interpret_iff_binding (a : Agent) (s : Symbol) (tau : Nat) :
    ((a.interpret_symbol s tau).2.isSome ↔
      a.symbol_table.lookup s.token = some s.pattern) ∧
    ((a.interpret_symbol s tau).2 = none → (a.interpret_symbol s tau).1 = a) := by
  cases h : a.symbol_table.lookup s.token with
  | none => simp [Agent.interpret_symbol, h]
  | some p =>
    by_cases hp : p = s.pattern
    · subst hp
      simp [Agent.interpret_symbol, h]
    · simp [Agent.interpret_symbol, h, hp]

/-- C4: for a rate in `[0,1]` and nonnegative stored activations, one `decay`
multiplies each value by `1 - rate` (the floor at 0 is inert), afterwards no
entry with value `≤ 0.01` remains, and `decay(1.0)` removes every entry in a
single call. -/
theorem C4_substrate_decay (s : Substrate) (r : ℚ) (h0 : 0 ≤ r) (h1 : r ≤ 1)
    (ha : ∀ q ∈ s.activations, 0 ≤ q.2) :
    (∀ q ∈ s.activations, max 0 (q.2 * (1 - r)) = q.2 * (1 - r)) ∧
    (∀ q ∈ (s.decay r).activations, 1/100 < q.2) ∧
    (s.decay 1).activations = [] := by
  refine ⟨fun q hq => max_eq_right (mul_nonneg (ha q hq) (by linarith)), ?_, ?_⟩
  · intro q hq
    simp only [Substrate.decay, List.mem_filter, decide_eq_true_eq] at hq
    exact hq.2
  · simp only [Substrate.decay, List.filter_eq_nil_iff, List.mem_map, decide_eq_true_eq]
    rintro q ⟨p, _, rfl⟩
    norm_num

def c4Sub : Substrate := ⟨[(⟨"p"⟩, 5)]⟩

/-- C4, instantiated: one entry of activation 5 decayed at rate 1/2. -/
theorem C4_substrate_decay_witness :
    (∀ q ∈ c4Sub.activations, max 0 (q.2 * (1 - 1/2)) = q.2 * (1 - 1/2)) ∧
    (∀ q ∈ (c4Sub.decay (1/2)).activations, 1/100 < q.2) ∧
    (c4Sub.decay 1).activations = [] :=
  C4_substrate_decay c4Sub (1/2) (by norm_num) (by norm_num)
    (by
      intro q hq
      simp only [c4Sub, List.mem_singleton] at hq
      subst hq
      norm_num)

/-- C7: `promote` is `none` exactly at `Cell`; otherwise it returns a node one
level higher (in Void < Particle < Atom < Molecule < Cell order) whose sole
child is the unchanged original, with empty substrate, no agents, and an id
combining the new level's ordinal with the old id. -/
theorem C7_promote_shape (c : CategoryObject) :
    (c.level = .Cell → c.promote = none) ∧
    (c.level ≠ .Cell →
      ∃ c', c.promote = some c' ∧
        c'.level.ord = c.level.ord + 1 ∧
        c'.subobjects = [c] ∧
        c'.substrate = ⟨[]⟩ ∧
        c'.agents = [] ∧
        c'.id = toString c'.level.ord ++ "-" ++ c.id) := by
  obtain ⟨l, i, sub, subs, ags⟩ := c
  cases l <;>
    simp [CategoryObject.promote, RecursionLevel.next, RecursionLevel.ord,
      CategoryObject.level, CategoryObject.subobjects, CategoryObject.substrate,
      CategoryObject.agents, CategoryObject.id]

/-- C9: under nonnegative deltas and rates, a trace starting in `[0,1]` stays
in `[0,1]` after every prefix of a reinforce/decay sequence; and after
`decay_all` no trace with stability 0 survives. -/
theorem C9_stability_clamped (t : MemoryTrace) (ops : List (ℚ ⊕ ℚ))
    (h0 : 0 ≤ t.stability) (h1 : t.stability ≤ 1)
    (hops : ∀ op ∈ ops, Sum.elim (fun d => 0 ≤ d) (fun r => 0 ≤ r) op) :
    (∀ l₁ l₂, ops = l₁ ++ l₂ →
      0 ≤ (applyTraceOps t l₁).stability ∧ (applyTraceOps t l₁).stability ≤ 1) ∧
    (∀ (f : MemoryField) (rate : ℚ), ∀ t' ∈ (f.decay_all rate).traces,
      0 < t'.stability) := by
  constructor
  · intro l₁ l₂ heq
    exact applyTraceOps_stability l₁ t h0 h1
      (fun op hop => hops op (heq ▸ List.mem_append_left l₂ hop))
  · intro f rate t' ht'
    simp only [MemoryField.decay_all, List.mem_filter, decide_eq_true_eq] at ht'
    exact ht'.2

def c9Trace : MemoryTrace := ⟨⟨"a", ⟨"p"⟩⟩, 0, 1/2, []⟩

/-- C9, instantiated: stability 1/2, one reinforce then one decay. -/
theorem C9_stability_clamped_witness :
    (∀ l₁ l₂, [Sum.inl (1/10), Sum.inr (3/10)] = l₁ ++ l₂ →
      0 ≤ (applyTraceOps c9Trace l₁).stability ∧
        (applyTraceOps c9Trace l₁).stability ≤ 1) ∧
    (∀ (f : MemoryField) (rate : ℚ), ∀ t' ∈ (f.decay_all rate).traces,
      0 < t'.stability) :=
  C9_stability_clamped c9Trace [Sum.inl (1/10), Sum.inr (3/10)]
    (by norm_num [c9Trace]) (by norm_num [c9Trace])
    (by
      intro op hop
      simp only [List.mem_cons, List.not_mem_nil, or_false] at hop
      rcases hop with rfl | rfl <;> norm_num)

/-- C10: when the binding matches but no stored trace has the queried symbol,
`interpret_symbol` still returns the meaning and the memory field is left
completely unchanged. -/
theorem C10_interpret_unmatched_memory (a : Agent) (s : Symbol) (tau : Nat)
    (hb : a.symbol_table.lookup s.token = some s.pattern)
    (hno : ∀ t ∈ a.memory.traces, t.symbol ≠ s) :
    (a.interpret_symbol s tau).2 = some (Meaning.from_symbol s tau) ∧
    (a.interpret_symbol s tau).1.memory = a.memory := by
  simp only [Agent.interpret_symbol, hb, if_pos rfl]
  rw [reinforce_symbol_no_match a.memory s (1/10) hno]
  rw [pushFirstInterpretant_no_match a.memory.traces s (Meaning.from_symbol s tau) hno]
  exact ⟨rfl, rfl⟩

theorem symWalk_short_false (w : Nat) (hw : 1 ≤ w) :
    ∀ ts : List MemoryTrace, (∃ t ∈ ts, t.interpretants.length < w + 1) →
      symWalk w ts = some false := by
  intro ts
  induction ts with
  | nil =>
    rintro ⟨t, ht, _⟩
    cases ht
  | cons t ts ih =>
    rintro ⟨t', ht', hshort'⟩
    rw [symWalk]
    by_cases hshort : t.interpretants.length < w + 1
    · rw [if_pos hshort]
    · rw [if_neg hshort]
      push_neg at hshort
      have hlenw : (t.interpretants.drop (t.interpretants.length - w)).length = w := by
        rw [List.length_drop]
        omega
      cases hL : t.interpretants.drop (t.interpretants.length - w) with
      | nil =>
        rw [hL] at hlenw
        simp at hlenw
        omega
      | cons m0 rest =>
        dsimp only
        split
        · apply ih
          rcases List.mem_cons.mp ht' with rfl | hmem
          · omega
          · exact ⟨t', hmem, hshort'⟩
        · rfl

theorem symWalk_true_iff (w : Nat) (hw : 1 ≤ w) :
    ∀ ts : List MemoryTrace, (∀ t ∈ ts, w + 1 ≤ t.interpretants.length) →
      (symWalk w ts = some true ↔
        ∀ t ∈ ts, ∀ m ∈ t.interpretants.drop (t.interpretants.length - w),
          ∀ m' ∈ t.interpretants.drop (t.interpretants.length - w),
            m.description = m'.description) := by
  intro ts
  induction ts with
  | nil =>
    intro _
    simp [symWalk]
  | cons t ts ih =>
    intro hmat
    have hlen := hmat t (List.mem_cons_self t ts)
    rw [symWalk, if_neg (by omega)]
    have hlenw : (t.interpretants.drop (t.interpretants.length - w)).length = w := by
      rw [List.length_drop]
      omega
    cases hL : t.interpretants.drop (t.interpretants.length - w) with
    | nil =>
      rw [hL] at hlenw
      simp at hlenw
      omega
    | cons m0 rest =>
      dsimp only
      by_cases hall : ((m0 :: rest).all (fun m => decide (m.description = m0.description))) = true
      · rw [if_pos hall]
        rw [ih (fun u hu => hmat u (List.mem_cons_of_mem t hu))]
        constructor
        · intro hrest u hu
          rcases List.mem_cons.mp hu with rfl | hmem
          · intro m hm m' hm'
            rw [hL] at hm hm'
            have h1 := List.all_eq_true.mp hall m hm
            have h2 := List.all_eq_true.mp hall m' hm'
            rw [decide_eq_true_eq] at h1 h2
            rw [h1, h2]
          · exact hrest u hmem
        · intro hpair u hu
          exact hpair u (List.mem_cons_of_mem t hu)
      · rw [if_neg hall]
        refine iff_of_false (by simp) ?_
        intro hpair
        apply hall
        have hp := hpair t (List.mem_cons_self t ts)
        rw [hL] at hp
        exact List.all_eq_true.mpr
          (fun m hm => decide_eq_true (hp m hm m0 (List.mem_cons_self m0 rest)))

def c5Trace : MemoryTrace :=
  ⟨⟨"x", ⟨"p"⟩⟩, 0, 1, [Meaning.from_symbol ⟨"x", ⟨"p"⟩⟩ 0]⟩

def c5Agent : Agent := ⟨"a", [("x", ⟨"p"⟩)], ⟨[c5Trace], 4⟩, 0⟩

/-- C5 (counterexample): at window 0, an agent whose first trace has one
interpretant makes `detect_symmetry` index `last[0]` on an empty slice — a
panic, modelled `none` — where the claim asserts a `true` return (the last 0
descriptions are vacuously identical). -/
theorem C5_counterexample : detect_symmetry c5Agent 0 = none := rfl

/-- C5 (amended to windows ≥ 1): `detect_symmetry` returns true on zero
traces; returns false when any trace has fewer than `window + 1`
interpretants; and otherwise returns true exactly when every trace's last
`window` interpretant descriptions are pairwise identical. -/
theorem C5_detect_symmetry_cases (a : Agent) (w : Nat) (hw : 1 ≤ w) :
    (a.memory.traces = [] → detect_symmetry a w = some true) ∧
    ((∃ t ∈ a.memory.traces, t.interpretants.length < w + 1) →
      detect_symmetry a w = some false) ∧
    ((∀ t ∈ a.memory.traces, w + 1 ≤ t.interpretants.length) →
      (detect_symmetry a w = some true ↔
        ∀ t ∈ a.memory.traces,
          ∀ m ∈ t.interpretants.drop (t.interpretants.length - w),
            ∀ m' ∈ t.interpretants.drop (t.interpretants.length - w),
              m.description = m'.description)) := by
  refine ⟨?_, ?_, ?_⟩
  · intro h
    unfold detect_symmetry
    rw [h]
    rfl
  · exact fun h => symWalk_short_false w hw a.memory.traces h
  · exact fun h => symWalk_true_iff w hw a.memory.traces h

/-- C5, instantiated at window 1 on an agent with one single-interpretant
trace. -/
theorem C5_detect_symmetry_cases_witness :
    (c5Agent.memory.traces = [] → detect_symmetry c5Agent 1 = some true) ∧
    ((∃ t ∈ c5Agent.memory.traces, t.interpretants.length < 1 + 1) →
      detect_symmetry c5Agent 1 = some false) ∧
    ((∀ t ∈ c5Agent.memory.traces, 1 + 1 ≤ t.interpretants.length) →
      (detect_symmetry c5Agent 1 = some true ↔
        ∀ t ∈ c5Agent.memory.traces,
          ∀ m ∈ t.interpretants.drop (t.interpretants.length - 1),
            ∀ m' ∈ t.interpretants.drop (t.interpretants.length - 1),
              m.description = m'.description)) :=
  C5_detect_symmetry_cases c5Agent 1 (by decide)

theorem pushFirstInterpretant_length (ts : List MemoryTrace) (s : Symbol) (m : Meaning) :
    (pushFirstInterpretant ts s m).length = ts.length := by
  induction ts with
  | nil => rfl
  | cons t ts ih =>
    rw [pushFirstInterpretant]
    split <;> simp [ih]

theorem interpret_symbol_success_eq (a : Agent) (s : Symbol) (tau : Nat)
    (hb : a.symbol_table.lookup s.token = some s.pattern) :
    a.interpret_symbol s tau =
      ({ a with memory :=
          { traces := pushFirstInterpretant
              (a.memory.traces.map (fun t => if t.symbol = s then t.reinforce (1/10) else t))
              s (Meaning.from_symbol s tau)
            max_traces := a.memory.max_traces } }, some (Meaning.from_symbol s tau)) := by
  unfold Agent.interpret_symbol
  rw [hb]
  simp [MemoryField.reinforce_symbol]

theorem pushFirst_reinforce_getElem (s : Symbol) (m : Meaning) (ts : List MemoryTrace)
    (i : Nat) (t : MemoryTrace) (h : ts[i]? = some t) :
    (pushFirstInterpretant
        (ts.map (fun u => if u.symbol = s then u.reinforce (1/10) else u)) s m)[i]? =
      some (
        if ts.findIdx (fun u => decide (u.symbol = s)) = i then
          { (if t.symbol = s then t.reinforce (1/10) else t) with
              interpretants := t.interpretants ++ [m] }
        else (if t.symbol = s then t.reinforce (1/10) else t)) := by
  induction ts generalizing i with
  | nil => simp at h
  | cons t0 ts ih =>
    by_cases h0 : t0.symbol = s
    · have hhead : ((if t0.symbol = s then t0.reinforce (1/10) else t0)).symbol = s := by
        simp [h0, MemoryTrace.reinforce]
      rw [List.map_cons, pushFirstInterpretant, if_pos hhead]
      cases i with
      | zero =>
        rw [List.getElem?_cons_zero, Option.some.injEq] at h
        subst h
        simp [List.findIdx_cons, h0, MemoryTrace.reinforce]
      | succ j =>
        rw [List.getElem?_cons_succ] at h
        rw [List.getElem?_cons_succ, List.getElem?_map, h]
        simp [List.findIdx_cons, h0]
    · have hhead : ¬ ((if t0.symbol = s then t0.reinforce (1/10) else t0)).symbol = s := by
        simp [h0]
      rw [List.map_cons, pushFirstInterpretant, if_neg hhead]
      cases i with
      | zero =>
        rw [List.getElem?_cons_zero, Option.some.injEq] at h
        subst h
        simp [List.findIdx_cons, h0]
      | succ j =>
        rw [List.getElem?_cons_succ] at h
        rw [List.getElem?_cons_succ, ih j h]
        have hiff : (ts.findIdx (fun u => decide (u.symbol = s)) = j) ↔
            ((t0 :: ts).findIdx (fun u => decide (u.symbol = s)) = j + 1) := by
          rw [List.findIdx_cons]
          simp [h0]
        by_cases hj : ts.findIdx (fun u => decide (u.symbol = s)) = j
        · rw [if_pos hj, if_pos (hiff.mp hj)]
        · rw [if_neg hj, if_neg (fun hc => hj (hiff.mpr hc))]

/-- C6: on a successful interpretation, the returned meaning carries exactly
the description `Interpretation of <token> at τ=<tau>`; every stored trace
keeps its symbol and creation index; every trace matching the symbol by full
equality has its stability moved to `clamp(stability + 0.1, 0, 1)`;
non-matching traces are untouched; and the meaning is appended to the
interpretants of exactly the first matching trace. -/
theorem C6_interpret_success (a : Agent) (s : Symbol) (tau : Nat)
    (hb : a.symbol_table.lookup s.token = some s.pattern) :
    (a.interpret_symbol s tau).2 = some (Meaning.from_symbol s tau) ∧
    (Meaning.from_symbol s tau).description =
      "Interpretation of \x27" ++ s.token ++ "\x27 at τ=" ++ toString tau ∧
    (a.interpret_symbol s tau).1.memory.traces.length = a.memory.traces.length ∧
    (∀ i (t : MemoryTrace), a.memory.traces[i]? = some t →
      ∃ t', (a.interpret_symbol s tau).1.memory.traces[i]? = some t' ∧
        t'.symbol = t.symbol ∧
        t'.tau_index = t.tau_index ∧
        (t.symbol = s → t'.stability = clampQ (t.stability + 1/10) 0 1) ∧
        (t.symbol ≠ s → t' = t) ∧
        (a.memory.traces.findIdx (fun u => decide (u.symbol = s)) = i →
          t'.interpretants = t.interpretants ++ [Meaning.from_symbol s tau]) ∧
        (a.memory.traces.findIdx (fun u => decide (u.symbol = s)) ≠ i →
          t'.interpretants = t.interpretants)) := by
  have hshape := interpret_symbol_success_eq a s tau hb
  refine ⟨by rw [hshape], rfl, ?_, ?_⟩
  · rw [hshape]
    simp [pushFirstInterpretant_length]
  · intro i t ht
    rw [hshape]
    dsimp only
    rw [pushFirst_reinforce_getElem s (Meaning.from_symbol s tau) a.memory.traces i t ht]
    refine ⟨_, rfl, ?_⟩
    by_cases hidx : a.memory.traces.findIdx (fun u => decide (u.symbol = s)) = i
    · have hmatch : t.symbol = s := by
        have hw : a.memory.traces[a.memory.traces.findIdx
            (fun u => decide (u.symbol = s))]? = some t := by
          rw [hidx]
          exact ht
        have hp := List.findIdx_of_getElem?_eq_some hw
        exact of_decide_eq_true hp
      simp [hidx, hmatch, MemoryTrace.reinforce]
    · by_cases hts : t.symbol = s <;> simp [hidx, hts, MemoryTrace.reinforce]

def c6Trace : MemoryTrace := ⟨⟨"x", ⟨"p"⟩⟩, 0, 1/2, []⟩

def c6Agent : Agent := ⟨"w", [("x", ⟨"p"⟩)], ⟨[c6Trace], 4⟩, 0⟩

/-- C6, instantiated: one stored matching trace of stability 1/2. -/
theorem C6_interpret_success_witness :
    (c6Agent.interpret_symbol ⟨"x", ⟨"p"⟩⟩ 7).2 =
      some (Meaning.from_symbol ⟨"x", ⟨"p"⟩⟩ 7) ∧
    (Meaning.from_symbol (⟨"x", ⟨"p"⟩⟩ : Symbol) 7).description =
      "Interpretation of \x27" ++ "x" ++ "\x27 at τ=" ++ toString 7 ∧
    (c6Agent.interpret_symbol ⟨"x", ⟨"p"⟩⟩ 7).1.memory.traces.length =
      c6Agent.memory.traces.length ∧
    (∀ i (t : MemoryTrace), c6Agent.memory.traces[i]? = some t →
      ∃ t', (c6Agent.interpret_symbol ⟨"x", ⟨"p"⟩⟩ 7).1.memory.traces[i]? = some t' ∧
        t'.symbol = t.symbol ∧
        t'.tau_index = t.tau_index ∧
        (t.symbol = ⟨"x", ⟨"p"⟩⟩ → t'.stability = clampQ (t.stability + 1/10) 0 1) ∧
        (t.symbol ≠ ⟨"x", ⟨"p"⟩⟩ → t' = t) ∧
        (c6Agent.memory.traces.findIdx
            (fun u => decide (u.symbol = ⟨"x", ⟨"p"⟩⟩)) = i →
          t'.interpretants = t.interpretants ++ [Meaning.from_symbol ⟨"x", ⟨"p"⟩⟩ 7]) ∧
        (c6Agent.memory.traces.findIdx
            (fun u => decide (u.symbol = ⟨"x", ⟨"p"⟩⟩)) ≠ i →
          t'.interpretants = t.interpretants)) :=
  C6_interpret_success c6Agent ⟨"x", ⟨"p"⟩⟩ 7 (by decide)

def c10Agent : Agent := ⟨"w", [("x", ⟨"p"⟩)], ⟨[], 4⟩, 0⟩

/-- C10, instantiated: a bound token whose trace was never admitted. -/
theorem C10_interpret_unmatched_memory_witness :
    (c10Agent.interpret_symbol ⟨"x", ⟨"p"⟩⟩ 0).2 =
      some (Meaning.from_symbol ⟨"x", ⟨"p"⟩⟩ 0) ∧
    (c10Agent.interpret_symbol ⟨"x", ⟨"p"⟩⟩ 0).1.memory = c10Agent.memory :=
  C10_interpret_unmatched_memory c10Agent ⟨"x", ⟨"p"⟩⟩ 0 (by decide)
    (by intro t ht; simp [c10Agent] at ht)

theorem aggregate_stability_eq (l : RecursionLevel) (i : String) (sub : Substrate)
    (subs : List CategoryObject) (agents : List Agent) :
    CategoryObject.aggregate_stability (.mk l i sub subs agents) =
      (subs.map CategoryObject.aggregate_stability).sum +
        (agents.map agentStabilitySum).sum := by
  rw [CategoryObject.aggregate_stability]
  rw [List.attach_map_coe subs CategoryObject.aggregate_stability]

/-- C8: `aggregate_stability` of a node is the sum of the children's recursive
aggregates plus the owned agents' trace-stability sums, and the value is
unchanged under any reordering of the children and agent lists (so sequential
and parallel fan-out summation orders agree). -/
theorem C8_aggregate_stability (l : RecursionLevel) (i : String) (sub : Substrate)
    (subs subs' : List CategoryObject) (agents agents' : List Agent)
    (hs : subs.Perm subs') (ha : agents.Perm agents') :
    CategoryObject.aggregate_stability (.mk l i sub subs agents) =
      (subs.map CategoryObject.aggregate_stability).sum +
        (agents.map agentStabilitySum).sum ∧
    CategoryObject.aggregate_stability (.mk l i sub subs agents) =
      CategoryObject.aggregate_stability (.mk l i sub subs' agents') := by
  refine ⟨aggregate_stability_eq l i sub subs agents, ?_⟩
  rw [aggregate_stability_eq l i sub subs agents,
    aggregate_stability_eq l i sub subs' agents']
  rw [(hs.map CategoryObject.aggregate_stability).sum_eq,
    (ha.map agentStabilitySum).sum_eq]

def c8a : CategoryObject := CategoryObject.new .Particle "a"

def c8b : CategoryObject := CategoryObject.new .Particle "b"

/-- C8, instantiated: an Atom node with two Particle children, swapped. -/
theorem C8_aggregate_stability_witness :
    CategoryObject.aggregate_stability (.mk .Atom "A" ⟨[]⟩ [c8a, c8b] []) =
      ([c8a, c8b].map CategoryObject.aggregate_stability).sum +
        (([] : List Agent).map agentStabilitySum).sum ∧
    CategoryObject.aggregate_stability (.mk .Atom "A" ⟨[]⟩ [c8a, c8b] []) =
      CategoryObject.aggregate_stability (.mk .Atom "A" ⟨[]⟩ [c8b, c8a] []) :=
  C8_aggregate_stability .Atom "A" ⟨[]⟩ [c8a, c8b] [c8b, c8a] [] []
    (List.Perm.swap c8b c8a []) (List.Perm.refl [])

def c3Sym : Symbol := ⟨"foo", ⟨"101"⟩⟩

def c3Agent1 : Agent := ((Agent.new "a" 16 (1/10)).express_symbol "foo" ⟨"101"⟩ 0).1

def c3Agent6 : Agent :=
  (((((c3Agent1.interpret_symbol c3Sym 0).1.interpret_symbol c3Sym 1).1.interpret_symbol
    c3Sym 2).1.interpret_symbol c3Sym 3).1.interpret_symbol c3Sym 4).1

def c3Agent7 : Agent := (c3Agent6.interpret_symbol (c3Sym.mutate) 5).1

/-- C3 (code bug): after `express_symbol("foo", P, 0)` on an agent of capacity
16 and threshold 0.1, five successful interpretations at strictly increasing
τ = 0..4 leave one trace with five interpretants, yet `detect_attractor` at
window 3 is `false` — the meaning descriptions embed τ, so the last three
differ — where the claim (and the repository's own test
src/tests/symmetry.rs) asserts `true`.  After mutating the symbol and
interpreting it once more the check is still `false`. -/
theorem C3_attractor_false_after_five :
    c3Agent6.memory.traces.map (fun t => t.interpretants.length) = [5] ∧
    detect_attractor c3Agent6 3 = some false ∧
    detect_attractor c3Agent7 3 = some false := by
  refine ⟨?_, ?_, ?_⟩ <;>
    (norm_num [c3Agent7, c3Agent6, c3Agent1, c3Sym, Agent.new, Agent.express_symbol,
      Agent.interpret_symbol, MemoryField.admitTrace, MemoryField.reinforce_symbol,
      MemoryTrace.reinforce, clampQ, pushFirstInterpretant, Meaning.from_symbol,
      tableInsert, detect_attractor, detect_symmetry, symWalk, Symbol.mutate,
      List.lookup] <;> decide)

end SPTL
